import Mathlib

/-!
Verification of the procedural-mesh and blade-rotation core of the
miniature-potato prototype.

The development shallowly embeds the algorithmic core of the repository:

* `generate_terrain_positions` / `generate_terrain_indices`: the two loops of
  `generate_procedural_terrain_mesh` (src/src/terrain.rs lines 8-46, duplicated in
  src/src/main.rs lines 495-531).  `f32`/`f64` values are modelled as real numbers;
  the `noise` crate's `Perlin::new(seed).get([a, b])` is abstracted as a function
  family `perlin : ℕ → ℝ → ℝ → ℝ` (seed, sample point to value).  Machine-integer
  arithmetic is kept exact: the `usize` loop bound `size - 1` wraps modulo `2^64`
  and every pushed index is stored `as u32`, i.e. reduced modulo `2^32`.
* `rotate_blades`: one tick of the blade rotator of src/src/main.rs lines 451-461
  (same code with a longer pivot offset in src/src/turbine.rs lines 156-169), using
  Mathlib's quaternions for `glam` quaternion arithmetic.
* `noiseDamping` / `radiusMultiplier`: the latitude noise damping of the ellipsoid
  (potato) generator, which the spec describes but which is not present under src/.
* `update_gravity_system`: the planet-centric gravity system of
  src/src/player.rs lines 253-278.
-/

namespace Minipotato

/-- Number of values of the 64-bit `usize` type. -/
def USIZE : ℕ := 2 ^ 64

/-- Number of values of the 32-bit `u32` type. -/
def U32 : ℕ := 2 ^ 32

/-- Three-component vector of reals, modelling `bevy::math::Vec3` (with `f32`
components abstracted as real numbers). -/
@[ext]
structure Vec3 where
  x : ℝ
  y : ℝ
  z : ℝ

instance : Zero Vec3 := ⟨⟨0, 0, 0⟩⟩

instance : Add Vec3 := ⟨fun a b => ⟨a.x + b.x, a.y + b.y, a.z + b.z⟩⟩

instance : Sub Vec3 := ⟨fun a b => ⟨a.x - b.x, a.y - b.y, a.z - b.z⟩⟩

instance : Neg Vec3 := ⟨fun a => ⟨-a.x, -a.y, -a.z⟩⟩

instance : SMul ℝ Vec3 := ⟨fun c a => ⟨c * a.x, c * a.y, c * a.z⟩⟩

/-- Sum of the squared components of a vector (the square of its Euclidean norm). -/
def sumSq (v : Vec3) : ℝ := v.x ^ 2 + v.y ^ 2 + v.z ^ 2

/-- Euclidean norm of a vector, modelling `Vec3::length`. -/
noncomputable def norm3 (v : Vec3) : ℝ := Real.sqrt (sumSq v)

/-- Euclidean distance between two points, modelling `Vec3::distance`. -/
noncomputable def dist3 (a b : Vec3) : ℝ := Real.sqrt (sumSq (a - b))

/-- Release-mode (wrapping) semantics of the `usize` subtraction `size - 1` that
bounds the index loops of `generate_procedural_terrain_mesh`. -/
def sizeSubOne (size : ℕ) : ℕ := (size + (USIZE - 1)) % USIZE

/-- Debug-mode (overflow-checked) semantics of the same `usize` subtraction
`size - 1`; `none` models the arithmetic-overflow panic. -/
def sizeSubOneChecked (size : ℕ) : Option ℕ :=
  if 1 ≤ size then some (size - 1) else none

/-- Vertex loop of `generate_procedural_terrain_mesh` (src/src/terrain.rs lines
13-19): `z` outer and `x` inner over `0..size`, pushing
`[x as f32, perlin.get([x as f64 * scale, z as f64 * scale]) as f32, z as f32]`,
with the `Perlin` noise source built from the fixed seed 42. -/
def generate_terrain_positions (perlin : ℕ → ℝ → ℝ → ℝ) (size : ℕ) (scale : ℝ) :
    List Vec3 :=
  (List.range size).flatMap fun (z : ℕ) =>
    (List.range size).map fun (x : ℕ) =>
      ⟨(x : ℝ), perlin 42 ((x : ℝ) * scale) ((z : ℝ) * scale), (z : ℝ)⟩

/-- Index loop of `generate_procedural_terrain_mesh` (src/src/terrain.rs lines
21-36), release semantics: for `z` and `x` in `0..(size - 1)` (a wrapping `usize`
subtraction) and `i = z * size + x`, six pushes per quad, each value stored
`as u32`, hence reduced modulo `2^32`.  (`usize` additions wrap modulo `2^64`,
which leaves residues modulo `2^32` unchanged, so the single reduction modulo
`2^32` per stored value is exact.) -/
def generate_terrain_indices (size : ℕ) : List ℕ :=
  (List.range (sizeSubOne size)).flatMap fun z =>
    (List.range (sizeSubOne size)).flatMap fun x =>
      [(z * size + x) % U32, (z * size + x + 1) % U32, (z * size + x + size) % U32,
        (z * size + x + 1) % U32, (z * size + x + size + 1) % U32,
        (z * size + x + size) % U32]

/-- Reference position buffer in the words of claim C1: the row-major sequence over
`[0, size)^2` whose vertex number `k` (so `z = k / size`, `x = k % size`) carries
`(x, h, z)` with `h` the seed-42 noise sampled at `(x * scale, z * scale)`. -/
def reference_positions (perlin : ℕ → ℝ → ℝ → ℝ) (size : ℕ) (scale : ℝ) :
    List Vec3 :=
  (List.range (size * size)).map fun k =>
    ⟨((k % size : ℕ) : ℝ),
      perlin 42 (((k % size : ℕ) : ℝ) * scale) (((k / size : ℕ) : ℝ) * scale),
      ((k / size : ℕ) : ℝ)⟩

/-- Reference index buffer in the words of claim C1: for each quad with `z, x` in
`[0, size - 1)` and `i = z * size + x`, the six indices `(i, i+1, i+size)` followed
by `(i+1, i+size+1, i+size)`. -/
def reference_indices (size : ℕ) : List ℕ :=
  (List.range (size - 1)).flatMap fun z =>
    (List.range (size - 1)).flatMap fun x =>
      [z * size + x, z * size + x + 1, z * size + x + size,
        z * size + x + 1, z * size + x + size + 1, z * size + x + size]

/-- Quaternion with the pure-imaginary part given by a vector. -/
def Vec3.toQuat (v : Vec3) : Quaternion ℝ := ⟨0, v.x, v.y, v.z⟩

/-- Rotation action of a quaternion on a vector: the imaginary part of
`q * v * star q`.  On unit quaternions this is exactly `glam`'s `Quat * Vec3`. -/
def quatApply (q : Quaternion ℝ) (v : Vec3) : Vec3 :=
  ⟨(q * v.toQuat * star q).imI, (q * v.toQuat * star q).imJ,
    (q * v.toQuat * star q).imK⟩

/-- `Quat::from_rotation_z(angle)`: the unit quaternion of a rotation by `angle`
about the Z axis (half-angle form). -/
noncomputable def fromRotationZ (angle : ℝ) : Quaternion ℝ :=
  ⟨Real.cos (angle / 2), 0, 0, Real.sin (angle / 2)⟩

/-- The fields of `bevy::transform::components::Transform` touched by the rotator
(scale is never read or written by it). -/
structure Transform where
  translation : Vec3
  rotation : Quaternion ℝ

/-- Modelled from the spec: Bevy's `Transform::rotate_around`, which is library
code absent from src/; section 4.3 of the spec fixes its semantics as
`new_translation = point + rotation * (old_translation - point)` and
`new_rotation = rotation * old_rotation`. -/
def rotate_around (t : Transform) (point : Vec3) (rotation : Quaternion ℝ) :
    Transform :=
  { translation := point + quatApply rotation (t.translation - point)
    rotation := rotation * t.rotation }

/-- One tick of `rotate_blades` on one blade (src/src/main.rs lines 451-461):
`delta_rotation = Quat::from_rotation_z(delta_seconds * rotation_speed)`, pivot
`translation - rotation * offset`, then `rotate_around`.  The hard-coded local
pivot offset is `(0, 2, 0)` in main.rs and `(0, 20, 0)` in turbine.rs; it is kept
as the parameter `offset`. -/
noncomputable def rotate_blades (rotation_speed delta_seconds : ℝ) (offset : Vec3)
    (t : Transform) : Transform :=
  let delta_rotation := fromRotationZ (delta_seconds * rotation_speed)
  let pivot := t.translation - quatApply t.rotation offset
  rotate_around t pivot delta_rotation

/-- The world-space pivot point that `rotate_blades` recomputes from the live
transform on every tick. -/
def pivotOf (offset : Vec3) (t : Transform) : Vec3 :=
  t.translation - quatApply t.rotation offset

/-- The PivotRotator step in the words of claim C2 / spec section 4.3:
`delta_angle = rotation_speed * delta_time`, `d` the rotation of `delta_angle`
about Z, pivot `p = translation - rotation.apply(offset)`, new translation
`p + d * (translation - p)`, new rotation `d * rotation`. -/
noncomputable def pivotRotatorSpec (rotation_speed delta_time : ℝ) (offset : Vec3)
    (t : Transform) : Transform :=
  let delta_angle := rotation_speed * delta_time
  let d := fromRotationZ delta_angle
  let p := t.translation - quatApply t.rotation offset
  { translation := p + quatApply d (t.translation - p)
    rotation := d * t.rotation }

/-- Modelled from the spec: the EllipsoidMeshGenerator (spec section 4.2) is not
present under src/ (src/src/potato.rs only loads a glTF asset).  Its
latitude-dependent noise damping factor is `pow(1 - |cos(theta)|, 0.5)`. -/
noncomputable def noiseDamping (theta : ℝ) : ℝ :=
  (1 - |Real.cos theta|) ^ ((0.5 : ℝ))

/-- Modelled from the spec: the ellipsoid generator's perturbed radius multiplier.
A uniform random perturbation `r` drawn from `[-noise_factor, noise_factor]` is
scaled by the damping factor and `1.0` is added. -/
def radiusMultiplier (r damping : ℝ) : ℝ := 1 + r * damping

/-- The state touched by `update_gravity_system` (src/src/player.rs lines
253-278): the avian `Gravity` resource and the player's `Transform` (queried
immutably).  `none` for the gravity vector models components poisoned by the
IEEE result of normalizing the zero vector (NaN). -/
structure GravityWorld where
  gravity : Option Vec3
  player : Transform

open Classical in
/-- The `glam` `Vec3::normalize`, `v / v.length()`: well defined exactly when the
vector is nonzero; on the zero vector the IEEE components are NaN, modelled as
`none`. -/
noncomputable def normalize3 (v : Vec3) : Option Vec3 :=
  if v = (⟨0, 0, 0⟩ : Vec3) then none else some ((norm3 v)⁻¹ • v)

/-- `update_gravity_system` (src/src/player.rs lines 253-278): the direction from
the player's translation to the world origin is normalized and scaled by 9.8 and
stored in the gravity resource; the player transform is only read. -/
noncomputable def update_gravity_system (w : GravityWorld) : GravityWorld :=
  { gravity :=
      (normalize3 ((⟨0, 0, 0⟩ : Vec3) - w.player.translation)).map
        fun d => (9.8 : ℝ) • d
    player := w.player }

/-! Component lemmas for the vector operations. -/

@[simp]
theorem Vec3.zero_x : (0 : Vec3).x = 0 := rfl

@[simp]
theorem Vec3.zero_y : (0 : Vec3).y = 0 := rfl

@[simp]
theorem Vec3.zero_z : (0 : Vec3).z = 0 := rfl

@[simp]
theorem Vec3.add_x (a b : Vec3) : (a + b).x = a.x + b.x := rfl

@[simp]
theorem Vec3.add_y (a b : Vec3) : (a + b).y = a.y + b.y := rfl

@[simp]
theorem Vec3.add_z (a b : Vec3) : (a + b).z = a.z + b.z := rfl

@[simp]
theorem Vec3.sub_x (a b : Vec3) : (a - b).x = a.x - b.x := rfl

@[simp]
theorem Vec3.sub_y (a b : Vec3) : (a - b).y = a.y - b.y := rfl

@[simp]
theorem Vec3.sub_z (a b : Vec3) : (a - b).z = a.z - b.z := rfl

@[simp]
theorem Vec3.neg_x (a : Vec3) : (-a).x = -a.x := rfl

@[simp]
theorem Vec3.neg_y (a : Vec3) : (-a).y = -a.y := rfl

@[simp]
theorem Vec3.neg_z (a : Vec3) : (-a).z = -a.z := rfl

@[simp]
theorem Vec3.smul_x (c : ℝ) (a : Vec3) : (c • a).x = c * a.x := rfl

@[simp]
theorem Vec3.smul_y (c : ℝ) (a : Vec3) : (c • a).y = c * a.y := rfl

@[simp]
theorem Vec3.smul_z (c : ℝ) (a : Vec3) : (c • a).z = c * a.z := rfl

/-! List helpers. -/

theorem flatMap_congr_left {α β : Type} {l : List α} {f g : α → List β}
    (h : ∀ a ∈ l, f a = g a) : l.flatMap f = l.flatMap g := by
  induction l with
  | nil => rfl
  | cons a l ih =>
      simp only [List.flatMap_cons]
      rw [h a (List.mem_cons_self a l), ih fun b hb => h b (List.mem_cons_of_mem a hb)]

theorem range_mul_map {α : Type} (f : ℕ → α) (a b : ℕ) :
    (List.range (a * b)).map f =
      (List.range a).flatMap fun z => (List.range b).map fun x => f (z * b + x) := by
  induction a with
  | zero => simp
  | succ n ih =>
      rw [Nat.succ_mul, List.range_add, List.map_append, ih, List.range_succ,
        List.flatMap_append]
      simp [List.map_map, Function.comp]

/-! Arithmetic facts about the terrain loops. -/

theorem sizeSubOne_eq {size : ℕ} (h1 : 1 ≤ size) (h2 : size < USIZE) :
    sizeSubOne size = size - 1 := by
  unfold sizeSubOne USIZE at *
  omega

theorem sizeSubOne_zero : sizeSubOne 0 = USIZE - 1 := by
  unfold sizeSubOne USIZE
  omega

theorem generate_terrain_positions_length (perlin : ℕ → ℝ → ℝ → ℝ) (size : ℕ)
    (scale : ℝ) :
    (generate_terrain_positions perlin size scale).length = size * size := by
  unfold generate_terrain_positions
  simp only [List.length_flatMap, Function.comp_def, List.length_map, List.length_range,
    List.map_const', List.sum_replicate, smul_eq_mul]

theorem quad_index_lt {size z x : ℕ} (h1 : 2 ≤ size) (hz : z < size - 1)
    (hx : x < size - 1) : z * size + x + size + 1 < size * size := by
  obtain ⟨t, rfl⟩ : ∃ t, size = t + 2 := ⟨size - 2, by omega⟩
  have hz' : z ≤ t := by omega
  have hx' : x ≤ t := by omega
  have hmul : z * (t + 2) ≤ t * (t + 2) := Nat.mul_le_mul_right _ hz'
  nlinarith

theorem generate_terrain_indices_lt_U32 (size : ℕ) :
    ∀ j ∈ generate_terrain_indices size, j < U32 := by
  intro j hj
  unfold generate_terrain_indices at hj
  rw [List.mem_flatMap] at hj
  obtain ⟨z, _, hj⟩ := hj
  rw [List.mem_flatMap] at hj
  obtain ⟨x, _, hj⟩ := hj
  have hpos : 0 < U32 := by unfold U32; norm_num
  simp only [List.mem_cons, List.not_mem_nil, or_false] at hj
  rcases hj with rfl | rfl | rfl | rfl | rfl | rfl <;> exact Nat.mod_lt _ hpos

theorem reference_positions_eq (perlin : ℕ → ℝ → ℝ → ℝ) {size : ℕ} (scale : ℝ)
    (h : 0 < size) :
    reference_positions perlin size scale =
      generate_terrain_positions perlin size scale := by
  unfold reference_positions generate_terrain_positions
  rw [range_mul_map]
  apply flatMap_congr_left
  intro z _
  apply List.map_congr_left
  intro x hx
  rw [List.mem_range] at hx
  have hmod : (z * size + x) % size = x := by
    rw [Nat.mul_comm z size, Nat.mul_add_mod, Nat.mod_eq_of_lt hx]
  have hdiv : (z * size + x) / size = z := by
    rw [Nat.mul_comm z size, Nat.mul_add_div h, Nat.div_eq_of_lt hx, Nat.add_zero]
  rw [hmod, hdiv]

theorem generate_terrain_indices_eq {size : ℕ} (h1 : 2 ≤ size) (h2 : size ≤ 65536) :
    generate_terrain_indices size = reference_indices size := by
  unfold generate_terrain_indices reference_indices
  rw [sizeSubOne_eq (by omega) (by unfold USIZE; omega)]
  unfold U32
  apply flatMap_congr_left
  intro z hz
  apply flatMap_congr_left
  intro x hx
  rw [List.mem_range] at hz hx
  have hb : z * size + x + size + 1 < size * size := quad_index_lt h1 hz hx
  have hU : size * size ≤ 2 ^ 32 := by
    calc size * size ≤ 65536 * 65536 := Nat.mul_le_mul h2 h2
    _ = 2 ^ 32 := by norm_num
  have e1 : (z * size + x) % 2 ^ 32 = z * size + x := Nat.mod_eq_of_lt (by omega)
  have e2 : (z * size + x + 1) % 2 ^ 32 = z * size + x + 1 := Nat.mod_eq_of_lt (by omega)
  have e3 : (z * size + x + size) % 2 ^ 32 = z * size + x + size :=
    Nat.mod_eq_of_lt (by omega)
  have e4 : (z * size + x + size + 1) % 2 ^ 32 = z * size + x + size + 1 :=
    Nat.mod_eq_of_lt (by omega)
  rw [e1, e2, e3, e4]

theorem generate_terrain_indices_length {size : ℕ} (h1 : 1 ≤ size)
    (h2 : size < USIZE) :
    (generate_terrain_indices size).length = 6 * (size - 1) * (size - 1) := by
  unfold generate_terrain_indices
  rw [sizeSubOne_eq h1 h2]
  simp only [List.length_flatMap, Function.comp_def, List.length_cons,
    List.length_nil, List.map_const', List.sum_replicate, smul_eq_mul,
    List.length_range]
  ring

theorem generate_terrain_indices_bound {size : ℕ} (h1 : 2 ≤ size)
    (h2 : size < USIZE) :
    ∀ j ∈ generate_terrain_indices size, j < size * size := by
  intro j hj
  unfold generate_terrain_indices at hj
  rw [sizeSubOne_eq (by omega) h2] at hj
  unfold U32 at hj
  rw [List.mem_flatMap] at hj
  obtain ⟨z, hz, hj⟩ := hj
  rw [List.mem_flatMap] at hj
  obtain ⟨x, hx, hj⟩ := hj
  rw [List.mem_range] at hz hx
  have hb : z * size + x + size + 1 < size * size := quad_index_lt h1 hz hx
  have m1 := Nat.mod_le (z * size + x) (2 ^ 32)
  have m2 := Nat.mod_le (z * size + x + 1) (2 ^ 32)
  have m3 := Nat.mod_le (z * size + x + size) (2 ^ 32)
  have m4 := Nat.mod_le (z * size + x + size + 1) (2 ^ 32)
  simp only [List.mem_cons, List.not_mem_nil, or_false] at hj
  rcases hj with rfl | rfl | rfl | rfl | rfl | rfl <;> omega

theorem generate_terrain_indices_zero_ne_nil : generate_terrain_indices 0 ≠ [] := by
  have hmem : (0 : ℕ) ∈ generate_terrain_indices 0 := by
    unfold generate_terrain_indices
    rw [List.mem_flatMap]
    refine ⟨0, ?_, ?_⟩
    · rw [List.mem_range, sizeSubOne_zero]
      unfold USIZE
      norm_num
    · rw [List.mem_flatMap]
      refine ⟨0, ?_, ?_⟩
      · rw [List.mem_range, sizeSubOne_zero]
        unfold USIZE
        norm_num
      · simp
  exact List.ne_nil_of_mem hmem

theorem generate_terrain_positions_one (perlin : ℕ → ℝ → ℝ → ℝ) (scale : ℝ) :
    generate_terrain_positions perlin 1 scale = [⟨0, perlin 42 0 0, 0⟩] := by
  unfold generate_terrain_positions
  have h1 : List.range 1 = [0] := rfl
  rw [h1]
  simp

theorem generate_terrain_indices_one : generate_terrain_indices 1 = [] := by
  unfold generate_terrain_indices
  rw [sizeSubOne_eq (by norm_num) (by unfold USIZE; norm_num)]
  simp

theorem sizeSubOneChecked_zero : sizeSubOneChecked 0 = none := rfl

theorem sizeSubOneChecked_pos {size : ℕ} (h : 1 ≤ size) :
    sizeSubOneChecked size = some (size - 1) := by
  unfold sizeSubOneChecked
  simp [h]

/-! Quaternion rotation facts. -/

theorem conj_re_zero (q : Quaternion ℝ) (v : Vec3) :
    (q * v.toQuat * star q).re = 0 := by
  simp only [Vec3.toQuat, Quaternion.mul_re, Quaternion.mul_imI, Quaternion.mul_imJ,
    Quaternion.mul_imK, Quaternion.star_re, Quaternion.star_imI, Quaternion.star_imJ,
    Quaternion.star_imK]
  ring

theorem toQuat_quatApply (q : Quaternion ℝ) (v : Vec3) :
    (quatApply q v).toQuat = q * v.toQuat * star q := by
  ext
  · exact (conj_re_zero q v).symm
  · rfl
  · rfl
  · rfl

theorem quatApply_mul (p q : Quaternion ℝ) (v : Vec3) :
    quatApply (p * q) v = quatApply p (quatApply q v) := by
  have key : p * q * v.toQuat * star (p * q) =
      p * (quatApply q v).toQuat * star p := by
    rw [toQuat_quatApply, star_mul]
    simp only [mul_assoc]
  ext
  · show (p * q * v.toQuat * star (p * q)).imI =
      (p * (quatApply q v).toQuat * star p).imI
    rw [key]
  · show (p * q * v.toQuat * star (p * q)).imJ =
      (p * (quatApply q v).toQuat * star p).imJ
    rw [key]
  · show (p * q * v.toQuat * star (p * q)).imK =
      (p * (quatApply q v).toQuat * star p).imK
    rw [key]

theorem quatApply_one (v : Vec3) : quatApply 1 v = v := by
  ext <;> simp [quatApply, Vec3.toQuat]

theorem sumSq_toQuat (v : Vec3) : Quaternion.normSq v.toQuat = sumSq v := by
  rw [Quaternion.normSq_def']
  unfold Vec3.toQuat sumSq
  norm_num

theorem sumSq_quatApply (q : Quaternion ℝ) (v : Vec3) :
    sumSq (quatApply q v) = Quaternion.normSq q ^ 2 * sumSq v := by
  have h1 : Quaternion.normSq (quatApply q v).toQuat =
      Quaternion.normSq (q * v.toQuat * star q) := by
    rw [toQuat_quatApply]
  rw [sumSq_toQuat] at h1
  rw [h1, map_mul, map_mul, Quaternion.normSq_star, sumSq_toQuat]
  ring

theorem normSq_fromRotationZ (a : ℝ) :
    Quaternion.normSq (fromRotationZ a) = 1 := by
  rw [Quaternion.normSq_def']
  unfold fromRotationZ
  norm_num

theorem fromRotationZ_zero : fromRotationZ 0 = 1 := by
  unfold fromRotationZ
  ext <;> simp

theorem fromRotationZ_mul (a b : ℝ) :
    fromRotationZ a * fromRotationZ b = fromRotationZ (a + b) := by
  unfold fromRotationZ
  have h : (a + b) / 2 = a / 2 + b / 2 := by ring
  ext <;>
    simp [Quaternion.mul_re, Quaternion.mul_imI, Quaternion.mul_imJ,
      Quaternion.mul_imK, h, Real.cos_add, Real.sin_add]
  ring

theorem fromRotationZ_apply (a : ℝ) (v : Vec3) :
    quatApply (fromRotationZ a) v =
      ⟨Real.cos a * v.x - Real.sin a * v.y,
        Real.sin a * v.x + Real.cos a * v.y, v.z⟩ := by
  have h2 : 2 * (a / 2) = a := by ring
  have hc := Real.cos_two_mul (a / 2)
  have hs := Real.sin_two_mul (a / 2)
  rw [h2] at hc hs
  have hp := Real.sin_sq_add_cos_sq (a / 2)
  ext
  · simp [quatApply, Vec3.toQuat, fromRotationZ, Quaternion.mul_imI,
      Quaternion.star_re, Quaternion.star_imI, Quaternion.star_imJ,
      Quaternion.star_imK, Quaternion.mul_re, Quaternion.mul_imJ,
      Quaternion.mul_imK, hc, hs]
    linear_combination (-(v.x)) * hp
  · simp [quatApply, Vec3.toQuat, fromRotationZ, Quaternion.mul_imI,
      Quaternion.star_re, Quaternion.star_imI, Quaternion.star_imJ,
      Quaternion.star_imK, Quaternion.mul_re, Quaternion.mul_imJ,
      Quaternion.mul_imK, hc, hs]
    linear_combination (-(v.y)) * hp
  · simp [quatApply, Vec3.toQuat, fromRotationZ, Quaternion.mul_imI,
      Quaternion.star_re, Quaternion.star_imI, Quaternion.star_imJ,
      Quaternion.star_imK, Quaternion.mul_re, Quaternion.mul_imJ,
      Quaternion.mul_imK, hc, hs]
    linear_combination v.z * hp

theorem vec_add_sub_cancel_left (a b : Vec3) : a + b - a = b := by
  ext <;> simp

theorem vec_add_sub_of_sub (a b : Vec3) : a + (b - a) = b := by
  ext <;> simp

/-! The pivot point is a fixed point of the per-tick update. -/

theorem pivot_step (speed dt : ℝ) (offset : Vec3) (t : Transform) :
    pivotOf offset (rotate_blades speed dt offset t) = pivotOf offset t := by
  unfold pivotOf rotate_blades rotate_around
  dsimp only
  rw [quatApply_mul]
  have h1 : t.translation - (t.translation - quatApply t.rotation offset) =
      quatApply t.rotation offset := by
    ext <;> simp
  rw [h1]
  ext <;> simp

theorem pivot_iterate (speed dt : ℝ) (offset : Vec3) (t : Transform) (n : ℕ) :
    pivotOf offset ((rotate_blades speed dt offset)^[n] t) = pivotOf offset t := by
  induction n with
  | zero => rfl
  | succ n ih => rw [Function.iterate_succ_apply', pivot_step, ih]

/-! Closed form of the iterated blade update. -/

theorem translation_iterate (speed dt : ℝ) (offset : Vec3) (t : Transform) (n : ℕ) :
    ((rotate_blades speed dt offset)^[n] t).translation =
      pivotOf offset t +
        quatApply (fromRotationZ ((n : ℝ) * (dt * speed)))
          (t.translation - pivotOf offset t) := by
  induction n with
  | zero =>
      rw [Function.iterate_zero_apply]
      norm_num [fromRotationZ_zero, quatApply_one, vec_add_sub_of_sub]
  | succ n ih =>
      rw [Function.iterate_succ_apply']
      have hstep :
          (rotate_blades speed dt offset
              ((rotate_blades speed dt offset)^[n] t)).translation =
            pivotOf offset ((rotate_blades speed dt offset)^[n] t) +
              quatApply (fromRotationZ (dt * speed))
                (((rotate_blades speed dt offset)^[n] t).translation -
                  pivotOf offset ((rotate_blades speed dt offset)^[n] t)) := rfl
      rw [hstep, pivot_iterate, ih, vec_add_sub_cancel_left, ← quatApply_mul,
        fromRotationZ_mul]
      have harg : dt * speed + (n : ℝ) * (dt * speed) =
          ((n + 1 : ℕ) : ℝ) * (dt * speed) := by
        push_cast
        ring
      rw [harg]

theorem dist_iterate (speed dt : ℝ) (offset : Vec3) (t : Transform) (n : ℕ) :
    dist3 (((rotate_blades speed dt offset)^[n] t).translation)
        (pivotOf offset ((rotate_blades speed dt offset)^[n] t)) =
      dist3 t.translation (pivotOf offset t) := by
  rw [pivot_iterate]
  unfold dist3
  rw [translation_iterate, vec_add_sub_cancel_left, sumSq_quatApply,
    normSq_fromRotationZ]
  norm_num

theorem four_steps_translation :
    ((rotate_blades Real.pi (1 / 2) ⟨0, 2, 0⟩)^[4]
        ⟨⟨0, 2, 0⟩, 1⟩).translation = ⟨0, 2, 0⟩ := by
  rw [translation_iterate]
  have hpiv : pivotOf ⟨0, 2, 0⟩ (⟨⟨0, 2, 0⟩, 1⟩ : Transform) = ⟨0, 0, 0⟩ := by
    unfold pivotOf
    rw [quatApply_one]
    ext <;> simp
  rw [hpiv]
  have harg : ((4 : ℕ) : ℝ) * (1 / 2 * Real.pi) = 2 * Real.pi := by
    push_cast
    ring
  rw [harg, fromRotationZ_apply]
  ext <;> simp [Real.cos_two_pi, Real.sin_two_pi]

/-! Norm facts for the gravity system. -/

theorem sumSq_nonneg (v : Vec3) : 0 ≤ sumSq v := by
  unfold sumSq
  positivity

theorem norm3_pos {v : Vec3} (h : v ≠ (⟨0, 0, 0⟩ : Vec3)) : 0 < norm3 v := by
  unfold norm3
  apply Real.sqrt_pos.mpr
  rcases lt_or_eq_of_le (sumSq_nonneg v) with hlt | heq
  · exact hlt
  · exfalso
    apply h
    unfold sumSq at heq
    have hx : v.x ^ 2 = 0 :=
      le_antisymm (by nlinarith [sq_nonneg v.y, sq_nonneg v.z]) (sq_nonneg v.x)
    have hy : v.y ^ 2 = 0 :=
      le_antisymm (by nlinarith [sq_nonneg v.x, sq_nonneg v.z]) (sq_nonneg v.y)
    have hz : v.z ^ 2 = 0 :=
      le_antisymm (by nlinarith [sq_nonneg v.x, sq_nonneg v.y]) (sq_nonneg v.z)
    ext
    · exact pow_eq_zero_iff two_ne_zero |>.mp hx
    · exact pow_eq_zero_iff two_ne_zero |>.mp hy
    · exact pow_eq_zero_iff two_ne_zero |>.mp hz

theorem norm3_smul (c : ℝ) (v : Vec3) : norm3 (c • v) = |c| * norm3 v := by
  unfold norm3 sumSq
  simp only [Vec3.smul_x, Vec3.smul_y, Vec3.smul_z]
  rw [show (c * v.x) ^ 2 + (c * v.y) ^ 2 + (c * v.z) ^ 2 =
      c ^ 2 * (v.x ^ 2 + v.y ^ 2 + v.z ^ 2) by ring,
    Real.sqrt_mul (sq_nonneg c), Real.sqrt_sq_eq_abs]

theorem norm3_zero_sub (v : Vec3) : norm3 ((⟨0, 0, 0⟩ : Vec3) - v) = norm3 v := by
  unfold norm3 sumSq
  simp only [Vec3.sub_x, Vec3.sub_y, Vec3.sub_z]
  norm_num

theorem zero_sub_eq_zero_iff (p : Vec3) :
    (⟨0, 0, 0⟩ : Vec3) - p = (⟨0, 0, 0⟩ : Vec3) ↔ p = (⟨0, 0, 0⟩ : Vec3) := by
  rw [Vec3.ext_iff, Vec3.ext_iff]
  simp only [Vec3.sub_x, Vec3.sub_y, Vec3.sub_z]
  constructor
  · rintro ⟨h1, h2, h3⟩
    exact ⟨by linarith, by linarith, by linarith⟩
  · rintro ⟨h1, h2, h3⟩
    exact ⟨by linarith, by linarith, by linarith⟩

/-! Claim theorems. -/

/-- C1, counterexample to the claim as stated: at `size = 65537` the emitted index
buffer differs from the reference index buffer, because every index is stored
`as u32` and the largest quad index `65535 * 65537 + 65535 + 65537 + 1 =
4295098368` exceeds `2^32 - 1`, so it is stored wrapped while the reference keeps
the exact value. -/
theorem C1_counterexample :
    generate_terrain_indices 65537 ≠ reference_indices 65537 := by
  intro h
  have hmem : (4295098368 : ℕ) ∈ reference_indices 65537 := by
    unfold reference_indices
    rw [List.mem_flatMap]
    refine ⟨65535, by rw [List.mem_range]; norm_num, ?_⟩
    rw [List.mem_flatMap]
    refine ⟨65535, by rw [List.mem_range]; norm_num, ?_⟩
    simp only [List.mem_cons]
    right; right; right; right; left
    norm_num
  rw [← h] at hmem
  have hlt := generate_terrain_indices_lt_U32 65537 _ hmem
  unfold U32 at hlt
  norm_num at hlt

/-- C1 (amended): for every `size ≥ 2` and every `scale`, the position buffer of the
heightfield generator (before face duplication) equals the reference row-major
buffer of vertices `(x, h, z)` with `h` the seed-42 noise at `(x*scale, z*scale)`;
and for every `2 ≤ size ≤ 65536` the index buffer equals the reference per-quad
sequence `(i, i+1, i+size), (i+1, i+size+1, i+size)` with `i = z*size+x` (for
larger sizes each stored `u32` index is the reference value reduced mod `2^32`). -/
theorem C1_theorem (perlin : ℕ → ℝ → ℝ → ℝ) (scale : ℝ) :
    (∀ size : ℕ, 2 ≤ size →
      generate_terrain_positions perlin size scale =
        reference_positions perlin size scale) ∧
    (∀ size : ℕ, 2 ≤ size → size ≤ 65536 →
      generate_terrain_indices size = reference_indices size) := by
  constructor
  · intro size h
    exact (reference_positions_eq perlin scale (by omega)).symm
  · intro size h1 h2
    exact generate_terrain_indices_eq h1 h2

theorem C1_witness :
    generate_terrain_positions (fun _ _ _ => 0) 3 1 =
      reference_positions (fun _ _ _ => 0) 3 1 ∧
    generate_terrain_indices 3 = reference_indices 3 :=
  ⟨(C1_theorem (fun _ _ _ => 0) 1).1 3 (by norm_num),
    (C1_theorem (fun _ _ _ => 0) 1).2 3 (by norm_num) (by norm_num)⟩

/-- C2: one step of the blade rotator computes `delta_angle = speed * dt`, builds
the rotation `d` of `delta_angle` about the Z axis, computes the pivot
`p = translation - rotation * offset`, and updates the transform to
`translation = p + d * (translation - p)` and `rotation = d * rotation` — i.e. the
code step equals the spec-side PivotRotator step for every transform, speed,
elapsed time and offset. -/
theorem C2_theorem (rotation_speed delta_time : ℝ) (offset : Vec3) (t : Transform) :
    rotate_blades rotation_speed delta_time offset t =
      pivotRotatorSpec rotation_speed delta_time offset t := by
  unfold rotate_blades pivotRotatorSpec rotate_around
  dsimp only
  rw [mul_comm delta_time rotation_speed]

/-- C3: across every sequence of blade-rotator steps (each with its own speed and
elapsed time, and each recomputing the pivot from the live transform), the
recomputed pivot is the same world-space point at every tick. -/
theorem C3_theorem (offset : Vec3) (t : Transform) (ticks : List (ℝ × ℝ)) :
    pivotOf offset
        (ticks.foldl (fun s p => rotate_blades p.1 p.2 offset s) t) =
      pivotOf offset t := by
  induction ticks generalizing t with
  | nil => rfl
  | cons a l ih => rw [List.foldl_cons, ih, pivot_step]

/-- C4: the heightfield generator is deterministic — for a fixed pair
`(size, scale)` with `size ≥ 2`, the output depends on nothing but the noise
family at the fixed seed 42, so two calls (even against two noise oracles that
agree at seed 42) produce identical position and index buffers. -/
theorem C4_theorem (perlinA perlinB : ℕ → ℝ → ℝ → ℝ) (size : ℕ) (scale : ℝ)
    (_hsize : 2 ≤ size) (h42 : ∀ a b, perlinA 42 a b = perlinB 42 a b) :
    generate_terrain_positions perlinA size scale =
      generate_terrain_positions perlinB size scale ∧
    generate_terrain_indices size = generate_terrain_indices size := by
  refine ⟨?_, rfl⟩
  unfold generate_terrain_positions
  simp only [h42]

theorem C4_witness :
    generate_terrain_positions (fun _ _ _ => 0) 2 1 =
      generate_terrain_positions (fun _ _ _ => 0) 2 1 ∧
    generate_terrain_indices 2 = generate_terrain_indices 2 :=
  C4_theorem (fun _ _ _ => 0) (fun _ _ _ => 0) 2 1 (by norm_num) fun _ _ => rfl

/-- C5: the Euclidean distance from the transform's translation to the recomputed
pivot is unchanged after every number of steps; and starting from translation
`(0, 2, 0)`, pivot offset `(0, 2, 0)` and identity rotation, four steps with
`rotation_speed = pi` and `delta_time = 0.5` return the translation to its
starting value (total rotation `2*pi`). -/
theorem C5_theorem :
    (∀ (speed dt : ℝ) (offset : Vec3) (t : Transform) (n : ℕ),
      dist3 (((rotate_blades speed dt offset)^[n] t).translation)
          (pivotOf offset ((rotate_blades speed dt offset)^[n] t)) =
        dist3 t.translation (pivotOf offset t)) ∧
    ((rotate_blades Real.pi (1 / 2) ⟨0, 2, 0⟩)^[4]
        ⟨⟨0, 2, 0⟩, 1⟩).translation = ⟨0, 2, 0⟩ :=
  ⟨dist_iterate, four_steps_translation⟩

/-- C6: for every `size ≥ 2` (and any `usize`-representable size) the heightfield
generator emits exactly `6 * (size - 1)^2` index entries, i.e. `2 * (size - 1)^2`
triangles. -/
theorem C6_theorem (size : ℕ) (h1 : 2 ≤ size) (h2 : size < USIZE) :
    (generate_terrain_indices size).length = 6 * (size - 1) ^ 2 := by
  rw [generate_terrain_indices_length (by omega) h2]
  ring

theorem C6_witness : (generate_terrain_indices 3).length = 6 * (3 - 1) ^ 2 :=
  C6_theorem 3 (by norm_num) (by norm_num [USIZE])

/-- C7: for every `size ≥ 2`, the vertex count is `size^2` and every emitted index
is strictly below it, so every triangle index references an existing vertex of the
position buffer. -/
theorem C7_theorem (perlin : ℕ → ℝ → ℝ → ℝ) (size : ℕ) (scale : ℝ)
    (h1 : 2 ≤ size) (h2 : size < USIZE) :
    (generate_terrain_positions perlin size scale).length = size ^ 2 ∧
    ∀ j ∈ generate_terrain_indices size, j < size ^ 2 := by
  constructor
  · rw [generate_terrain_positions_length]
    ring
  · intro j hj
    have hb := generate_terrain_indices_bound h1 h2 j hj
    rw [pow_two]
    exact hb

theorem C7_witness :
    (generate_terrain_positions (fun _ _ _ => 0) 3 1).length = 3 ^ 2 :=
  (C7_theorem (fun _ _ _ => 0) 3 1 (by norm_num) (by norm_num [USIZE])).1

/-- C8: in the (spec-modelled) ellipsoid generator, the noise damping factor
`pow(1 - |cos theta|, 0.5)` is exactly 0 at both poles (`theta = 0` and
`theta = pi`), so the perturbed radius multiplier is exactly 1 there regardless of
the drawn perturbation, and the pole vertices lie on the unperturbed ellipsoid. -/
theorem C8_theorem :
    noiseDamping 0 = 0 ∧ noiseDamping Real.pi = 0 ∧
    ∀ r : ℝ, radiusMultiplier r (noiseDamping 0) = 1 ∧
      radiusMultiplier r (noiseDamping Real.pi) = 1 := by
  have h0 : noiseDamping 0 = 0 := by
    unfold noiseDamping
    rw [Real.cos_zero, show |(1 : ℝ)| = 1 from abs_one,
      show (1 : ℝ) - 1 = 0 by norm_num]
    exact Real.zero_rpow (by norm_num)
  have hpi : noiseDamping Real.pi = 0 := by
    unfold noiseDamping
    rw [Real.cos_pi, show |(-1 : ℝ)| = 1 by norm_num,
      show (1 : ℝ) - 1 = 0 by norm_num]
    exact Real.zero_rpow (by norm_num)
  refine ⟨h0, hpi, fun r => ⟨?_, ?_⟩⟩
  · simp [radiusMultiplier, h0]
  · simp [radiusMultiplier, hpi]

/-- C9: the heightfield generator is total for every `size ≥ 1` (`size = 1` yields
one vertex and an empty index buffer); for `size = 0` the `usize` loop bound
`size - 1` underflows: the overflow-checked (debug) subtraction fails, and the
wrapping (release) subtraction yields `2^64 - 1`, whence the emitted index buffer
is not the empty buffer. -/
theorem C9_theorem :
    (∀ (perlin : ℕ → ℝ → ℝ → ℝ) (size : ℕ) (scale : ℝ), 1 ≤ size → size < USIZE →
      (generate_terrain_positions perlin size scale).length = size * size) ∧
    (∀ (perlin : ℕ → ℝ → ℝ → ℝ) (scale : ℝ),
      generate_terrain_positions perlin 1 scale = [⟨0, perlin 42 0 0, 0⟩] ∧
      generate_terrain_indices 1 = []) ∧
    sizeSubOneChecked 0 = none ∧
    sizeSubOne 0 = USIZE - 1 ∧
    generate_terrain_indices 0 ≠ [] :=
  ⟨fun perlin size scale _ _ => generate_terrain_positions_length perlin size scale,
    fun perlin scale =>
      ⟨generate_terrain_positions_one perlin scale, generate_terrain_indices_one⟩,
    sizeSubOneChecked_zero, sizeSubOne_zero, generate_terrain_indices_zero_ne_nil⟩

theorem C9_witness :
    (generate_terrain_positions (fun _ _ _ => 0) 2 1).length = 2 * 2 :=
  C9_theorem.1 (fun _ _ _ => 0) 2 1 (by norm_num) (by norm_num [USIZE])

/-- C10: one run of the gravity system leaves the player transform unchanged; if
the player translation `p` is nonzero it sets the gravity resource to exactly 9.8
times the unit vector from `p` toward the world origin (a vector of norm 9.8
pointing at the origin); if `p` is exactly the origin, the normalization of the
zero vector leaves the gravity components undefined (modelled as `none`). -/
theorem C10_theorem (w : GravityWorld) :
    (update_gravity_system w).player = w.player ∧
    (w.player.translation ≠ (⟨0, 0, 0⟩ : Vec3) →
      (update_gravity_system w).gravity =
        some ((9.8 : ℝ) • ((norm3 w.player.translation)⁻¹ •
          ((⟨0, 0, 0⟩ : Vec3) - w.player.translation))) ∧
      ∀ g, (update_gravity_system w).gravity = some g → norm3 g = 9.8) ∧
    (w.player.translation = (⟨0, 0, 0⟩ : Vec3) →
      (update_gravity_system w).gravity = none) := by
  refine ⟨rfl, ?_, ?_⟩
  · intro hp
    have hu : (⟨0, 0, 0⟩ : Vec3) - w.player.translation ≠ (⟨0, 0, 0⟩ : Vec3) :=
      fun h => hp ((zero_sub_eq_zero_iff _).mp h)
    have hval : (update_gravity_system w).gravity =
        some ((9.8 : ℝ) • ((norm3 ((⟨0, 0, 0⟩ : Vec3) - w.player.translation))⁻¹ •
          ((⟨0, 0, 0⟩ : Vec3) - w.player.translation))) := by
      unfold update_gravity_system normalize3
      rw [if_neg hu]
      rfl
    constructor
    · rw [hval, norm3_zero_sub]
    · intro g hg
      rw [hval] at hg
      have hgval := Option.some.inj hg
      have hn : 0 < norm3 ((⟨0, 0, 0⟩ : Vec3) - w.player.translation) := norm3_pos hu
      rw [← hgval, norm3_smul, norm3_smul, abs_of_pos (by norm_num : (0 : ℝ) < 9.8),
        abs_of_pos (inv_pos.mpr hn)]
      field_simp
  · intro hp
    have hzero : (⟨0, 0, 0⟩ : Vec3) - w.player.translation = (⟨0, 0, 0⟩ : Vec3) := by
      rw [hp]
      ext <;> simp
    unfold update_gravity_system normalize3
    rw [hzero, if_pos rfl]
    rfl

theorem C10_witness :
    (update_gravity_system ⟨some ⟨0, 0, 0⟩, ⟨⟨3, 0, 0⟩, 1⟩⟩).gravity =
      some ((9.8 : ℝ) • ((norm3 (⟨3, 0, 0⟩ : Vec3))⁻¹ •
        ((⟨0, 0, 0⟩ : Vec3) - (⟨3, 0, 0⟩ : Vec3)))) :=
  ((C10_theorem ⟨some ⟨0, 0, 0⟩, ⟨⟨3, 0, 0⟩, 1⟩⟩).2.1
    (by rw [Ne, Vec3.ext_iff]; norm_num)).1

end Minipotato
